import Mathlib

/-!
Shallow embedding of the archive-to-CSV ingestion pipeline of
`extract_zip_standalone.py` (rig_report repository), together with proofs of
the behavioural claims about it.

Strings are modelled as `List Char`.  A text file read in Python text mode is
modelled as the list of its lines; depending on the function embedded, a line
either carries its terminator (the quality filter operates on `readlines`
output) or is terminator-free (the appender / verifier / rewriter strip the
terminator on entry and re-add it on exit, so their per-line behaviour is
modelled on terminator-free lines).
-/

namespace RigReport

/-- The characters removed by Python's `str.strip()` (Unicode whitespace). -/
def pyIsSpace (c : Char) : Bool :=
  c = ' ' || c = '\t' || c = '\n' || c = '\r' ||
  c = Char.ofNat 0x0b || c = Char.ofNat 0x0c ||
  c = Char.ofNat 0x1c || c = Char.ofNat 0x1d ||
  c = Char.ofNat 0x1e || c = Char.ofNat 0x1f ||
  c = Char.ofNat 0x85 || c = Char.ofNat 0xa0 ||
  c = Char.ofNat 0x1680 ||
  (0x2000 ≤ c.toNat && c.toNat ≤ 0x200a) ||
  c = Char.ofNat 0x2028 || c = Char.ofNat 0x2029 ||
  c = Char.ofNat 0x202f || c = Char.ofNat 0x205f || c = Char.ofNat 0x3000

/-- Python `line.strip()`: remove leading and trailing whitespace. -/
def pyStrip (l : List Char) : List Char :=
  ((l.dropWhile pyIsSpace).reverse.dropWhile pyIsSpace).reverse

/-- Python `line.rstrip("\n")`: remove every trailing newline character. -/
def rstripNl (l : List Char) : List Char :=
  (l.reverse.dropWhile (fun c => c = '\n')).reverse

/-- Python `s.split(',')`: split on every comma; `"".split(',') = [""]`. -/
def splitComma : List Char → List (List Char)
  | [] => [[]]
  | c :: rest =>
    if c = ',' then [] :: splitComma rest
    else
      match splitComma rest with
      | [] => [[c]]
      | f :: fs => (c :: f) :: fs

/-- Python `','.join(cols)`. -/
def joinComma : List (List Char) → List Char
  | [] => []
  | [f] => f
  | f :: fs => f ++ ',' :: joinComma fs

/-- Python `list.insert(n, a)`: insert before position `n`, append if `n` is
past the end. -/
def insertAt (a : α) : Nat → List α → List α
  | 0, l => a :: l
  | _ + 1, [] => [a]
  | n + 1, x :: l => x :: insertAt a n l

/-- Python substring test `pat in s`. -/
def isSubstring (pat : List Char) : List Char → Bool
  | [] => decide (pat = [])
  | c :: rest => pat.isPrefixOf (c :: rest) || isSubstring pat rest

/-- `extract_date`, line 24: the fixed-length date regex `\d{4}[-_]\d{2}[-_]\d{2}`
matched at the very start of the string. -/
def matchDateAt : List Char → Option (List Char)
  | c1 :: c2 :: c3 :: c4 :: s1 :: c5 :: c6 :: s2 :: c7 :: c8 :: _ =>
    if c1.isDigit && c2.isDigit && c3.isDigit && c4.isDigit &&
       (s1 = '-' || s1 = '_') && c5.isDigit && c6.isDigit &&
       (s2 = '-' || s2 = '_') && c7.isDigit && c8.isDigit then
      some [c1, c2, c3, c4, s1, c5, c6, s2, c7, c8]
    else none
  | _ => none

/-- `extract_date`, line 27: `date_str.replace('_', '-')`. -/
def normalizeDate (m : List Char) : List Char :=
  m.map (fun c => if c = '_' then '-' else c)

/-- `extract_date` (lines 23-29): `re.search` finds the leftmost match of the
fixed-length pattern, so the scan tries each start position left to right;
underscores are normalized to hyphens, and the sentinel is returned when no
position matches. -/
def extract_date : List Char → List Char
  | [] => ("0000-00-00").toList
  | s@(_ :: rest) =>
    match matchDateAt s with
    | some m => normalizeDate m
    | none => extract_date rest

/-- `add_date_column` loop body (lines 52-57): split the terminator-stripped
line on commas, right-pad with empty fields to at least 8, insert the date at
index 8, rejoin. -/
def addDateRow (date line : List Char) : List Char :=
  let columns := splitComma (rstripNl line)
  let columns := columns ++ List.replicate (8 - columns.length) []
  joinComma (insertAt date 8 columns)

/-- `add_date_column` (lines 47-59), on the file's lines (terminator-free);
the date is derived from the CSV file's own path by `extract_date`. -/
def add_date_column (date : List Char) (lines : List (List Char)) :
    List (List Char) :=
  lines.map (addDateRow date)

/-- `verify_date_column` loop body (lines 227-228): a line passes when it has
at least 9 comma-separated fields and field index 8 equals the expected date. -/
def verifyRow (date line : List Char) : Bool :=
  let columns := splitComma (rstripNl line)
  decide (9 ≤ columns.length) && decide (columns.getD 8 [] = date)

/-- `verify_date_column` (lines 223-230): `False` as soon as one line fails,
`True` when every line passes. -/
def verify_date_column (date : List Char) (lines : List (List Char)) : Bool :=
  lines.all (verifyRow date)

/-- The mojibake marker literal of line 67, `"\xef\xbf\xbd"` as three
Latin-1 characters. -/
def mojibakeMarker : List Char :=
  [Char.ofNat 0xef, Char.ofNat 0xbf, Char.ofNat 0xbd]

/-- Line 44 / 67: some character has code point below 32 and is not one of
newline, carriage return, tab. -/
def hasBadControl (line : List Char) : Bool :=
  line.any (fun ch => ch.toNat < 32 && !(ch = '\n' || ch = '\r' || ch = '\t'))

/-- `filter_nonprintable_lines` (lines 61-71): drop a line when its trimmed
comma-field count is at most 5, or when it holds the mojibake marker or a bad
control character; otherwise keep it unchanged, in order. -/
def filter_nonprintable_lines : List (List Char) → List (List Char)
  | [] => []
  | line :: rest =>
    if (splitComma (pyStrip line)).length ≤ 5 then
      filter_nonprintable_lines rest
    else if isSubstring mojibakeMarker line || hasBadControl line then
      filter_nonprintable_lines rest
    else
      line :: filter_nonprintable_lines rest

/-- Spec-side retention predicate for the Line Quality Filter: field count of
the trimmed line strictly above 5, no mojibake marker, no bad control
character. -/
def lineQualityOk (line : List Char) : Bool :=
  decide (5 < (splitComma (pyStrip line)).length) &&
  !(isSubstring mojibakeMarker line) && !(hasBadControl line)

/-- `combine_all_csv_files` inner loop (lines 244-261).  A file whose read
raised is `none` (logged and skipped); otherwise its lines are written in
order, each incrementing the row counter. -/
def combineLoop : List (Option (List (List Char))) → List (List Char) × Nat
  | [] => ([], 0)
  | none :: rest => combineLoop rest
  | some lines :: rest =>
    if lines.isEmpty then combineLoop rest
    else
      let p := combineLoop rest
      (lines ++ p.1, lines.length + p.2)

/-- `combine_all_csv_files` (lines 232-267).  The first component is the
output file: `none` when the empty input list makes the function return 0
before any directory or file is created, `some content` once the output file
has been opened and written. -/
def combine_all_csv_files (files : List (Option (List (List Char)))) :
    Option (List (List Char)) × Nat :=
  if files.isEmpty then (none, 0)
  else
    let p := combineLoop files
    (some p.1, p.2)

/-- Index-file loading loop of `update_column_based_on_index` (lines 277-281):
a line contributes a `(key, value)` pair when its stripped comma-split has at
least two fields. -/
def buildLookup : List (List Char) → List (List Char × List Char)
  | [] => []
  | line :: rest =>
    match splitComma (pyStrip line) with
    | c0 :: c1 :: _ => (pyStrip c0, pyStrip c1) :: buildLookup rest
    | _ => buildLookup rest

/-- Python dict lookup over the association pairs in insertion order: the
last binding of a key wins. -/
def dictFind (m : List (List Char × List Char)) (k : List Char) :
    Option (List Char) :=
  (m.reverse.find? (fun p => decide (p.1 = k))).map (fun p => p.2)

/-- `update_column_based_on_index` loop body (lines 296-308): strip the line
terminator, split on commas; when there are more than 5 fields look up the
stripped field index 5, replacing it on a hit; rejoin.  Returns the rewritten
row and the (match, no-match) counter increments. -/
def updateRow (lookup : List (List Char × List Char)) (line : List Char) :
    List Char × Nat × Nat :=
  let cols := splitComma (rstripNl line)
  if 5 < cols.length then
    let key := pyStrip (cols.getD 5 [])
    match dictFind lookup key with
    | some v => (joinComma (cols.set 5 v), 1, 0)
    | none => (joinComma cols, 0, 1)
  else
    (joinComma cols, 0, 0)

/-- The rewrite loop over all combined-CSV lines, accumulating both counters. -/
def updateRows (lookup : List (List Char × List Char)) :
    List (List Char) → List (List Char) × Nat × Nat
  | [] => ([], 0, 0)
  | line :: rest =>
    let r := updateRow lookup line
    let rs := updateRows lookup rest
    (r.1 :: rs.1, r.2.1 + rs.2.1, r.2.2 + rs.2.2)

/-- `update_column_based_on_index` (lines 269-327).  The first argument is the
result of reading the index file: `none` when that read raised, in which case
the error is logged and the function returns 0 before the combined CSV is
touched.  The result is the match count and the combined file's content. -/
def update_column_based_on_index (indexContent : Option (List (List Char)))
    (combined : List (List Char)) : Nat × List (List Char) :=
  match indexContent with
  | none => (0, combined)
  | some idxLines =>
    let lookup := buildLookup idxLines
    let p := updateRows lookup combined
    (p.2.1, p.1)

/-- `os.path.basename` for POSIX paths: the part after the last slash. -/
def pathBasename (p : List Char) : List Char :=
  (p.reverse.takeWhile (fun c => c ≠ '/')).reverse

/-- Member qualification shared by the walkers (lines 88, 130):
`basename.lower().endswith('.csv') and len(basename) > 20`. -/
def qualifiesCsv (filename : List Char) : Bool :=
  let b := pathBasename filename
  (".csv").toList.isSuffixOf (b.map Char.toLower) && 20 < b.length

/-- `error_files.add(name)` on the process-wide set, modelled as a
duplicate-free list. -/
def addError (name : List Char) (s : List (List Char)) : List (List Char) :=
  if name ∈ s then s else name :: s

/-- The process-wide mutable state threaded through the archive walkers
(lines 17-21 and the `global` statements). -/
structure WalkState where
  errorFiles : List (List Char)
  totalCsvFound : Nat
  processedCsvNames : List (List Char)
  globalRawLines : Nat
  globalFilteredLines : Nat
deriving DecidableEq

/-- The per-archive accumulators of one walker invocation: `csv_count`,
`total_lines`, and the merged CSV being written. -/
structure ArchAcc where
  csvCount : Nat
  totalLines : Nat
  output : List (List Char)
deriving DecidableEq

/-- One entry of a ZIP archive.  `read` is the outcome of
`z.open` / `read_csv_lines`: `none` when it raised. -/
structure ZipEntry where
  filename : List Char
  isDir : Bool
  read : Option (List (List Char))
deriving DecidableEq

/-- One entry of a TAR archive.  `extract` is the outcome of
`tar.extractfile`: `none` when it returned `None`, `some none` when the
subsequent read raised, `some (some lines)` on success. -/
structure TarEntry where
  name : List Char
  isFile : Bool
  extract : Option (Option (List (List Char)))
deriving DecidableEq

/-- `merge_csv_from_zip` loop body (lines 83-108): skip names already in the
error set, skip directories and non-qualifying names, then count the member
and record its name before attempting the read; a failing read adds the name
to the error set and contributes no lines. -/
def processZipEntry (st : WalkState) (acc : ArchAcc) (e : ZipEntry) :
    WalkState × ArchAcc :=
  if e.filename ∈ st.errorFiles then (st, acc)
  else if e.isDir || !qualifiesCsv e.filename then (st, acc)
  else
    let st1 : WalkState :=
      { st with totalCsvFound := st.totalCsvFound + 1,
                processedCsvNames := st.processedCsvNames ++ [e.filename] }
    let acc1 : ArchAcc := { acc with csvCount := acc.csvCount + 1 }
    match e.read with
    | some lines =>
      let filtered := filter_nonprintable_lines lines
      ({ st1 with globalRawLines := st1.globalRawLines + lines.length,
                  globalFilteredLines := st1.globalFilteredLines + filtered.length },
       { acc1 with totalLines := acc1.totalLines + filtered.length,
                   output := acc1.output ++ filtered })
    | none =>
      ({ st1 with errorFiles := addError e.filename st1.errorFiles }, acc1)

/-- `merge_csv_from_tar` loop body (lines 125-151): same skip logic with the
regular-file check; counting and name recording happen before `extractfile`,
whose `None` result leaves the member counted but contributing nothing and
not blacklisted, while a raising read blacklists it. -/
def processTarEntry (st : WalkState) (acc : ArchAcc) (e : TarEntry) :
    WalkState × ArchAcc :=
  if e.name ∈ st.errorFiles then (st, acc)
  else if !e.isFile || !qualifiesCsv e.name then (st, acc)
  else
    let st1 : WalkState :=
      { st with totalCsvFound := st.totalCsvFound + 1,
                processedCsvNames := st.processedCsvNames ++ [e.name] }
    let acc1 : ArchAcc := { acc with csvCount := acc.csvCount + 1 }
    match e.extract with
    | none => (st1, acc1)
    | some none =>
      ({ st1 with errorFiles := addError e.name st1.errorFiles }, acc1)
    | some (some lines) =>
      let filtered := filter_nonprintable_lines lines
      ({ st1 with globalRawLines := st1.globalRawLines + lines.length,
                  globalFilteredLines := st1.globalFilteredLines + filtered.length },
       { acc1 with totalLines := acc1.totalLines + filtered.length,
                   output := acc1.output ++ filtered })

/-- The ZIP walker's member loop. -/
def walkZipLoop (st : WalkState) (acc : ArchAcc) :
    List ZipEntry → WalkState × ArchAcc
  | [] => (st, acc)
  | e :: rest =>
    let p := processZipEntry st acc e
    walkZipLoop p.1 p.2 rest

/-- The TAR walker's member loop. -/
def walkTarLoop (st : WalkState) (acc : ArchAcc) :
    List TarEntry → WalkState × ArchAcc
  | [] => (st, acc)
  | e :: rest =>
    let p := processTarEntry st acc e
    walkTarLoop p.1 p.2 rest

/-- An input archive with its member list, by container format. -/
inductive Archive where
  | zip (entries : List ZipEntry)
  | tar (entries : List TarEntry)
deriving DecidableEq

/-- One walker invocation (`merge_csv_from_zip` / `merge_csv_from_tar`): a
fresh per-archive accumulator, threading the process-wide state. -/
def walkArchive (st : WalkState) : Archive → WalkState × ArchAcc
  | Archive.zip entries => walkZipLoop st ⟨0, 0, []⟩ entries
  | Archive.tar entries => walkTarLoop st ⟨0, 0, []⟩ entries

/-- The orchestrator's per-archive loop (lines 363-369), restricted to the
walking part: archives are walked strictly sequentially, each producing its
own merged CSV. -/
def runArchives (st : WalkState) : List Archive → WalkState × List ArchAcc
  | [] => (st, [])
  | a :: rest =>
    let p := walkArchive st a
    let q := runArchives p.1 rest
    (q.1, p.2 :: q.2)

/-- Remove every member bearing a given name from an archive. -/
def archiveRemoveName (name : List Char) : Archive → Archive
  | Archive.zip entries =>
      Archive.zip (entries.filter (fun e => decide (e.filename ≠ name)))
  | Archive.tar entries =>
      Archive.tar (entries.filter (fun e => decide (e.name ≠ name)))

theorem splitComma_ne_nil (s : List Char) : splitComma s ≠ [] := by
  induction s with
  | nil => simp [splitComma]
  | cons c rest ih =>
    simp only [splitComma]
    split
    · simp
    · cases h : splitComma rest with
      | nil => simp
      | cons f fs => simp [h]

theorem joinComma_cons (f : List Char) (fs : List (List Char)) (h : fs ≠ []) :
    joinComma (f :: fs) = f ++ ',' :: joinComma fs := by
  cases fs with
  | nil => exact absurd rfl h
  | cons g gs => rfl

theorem join_splitComma (s : List Char) : joinComma (splitComma s) = s := by
  induction s with
  | nil => rfl
  | cons c rest ih =>
    simp only [splitComma]
    split
    · next hc =>
      subst hc
      rw [joinComma_cons _ _ (splitComma_ne_nil rest), ih]
      rfl
    · next hc =>
      cases h : splitComma rest with
      | nil => exact absurd h (splitComma_ne_nil rest)
      | cons f fs =>
        rw [h] at ih
        cases fs with
        | nil => simpa [joinComma] using congrArg (c :: ·) ih
        | cons g gs =>
          rw [joinComma_cons _ _ (by simp)]
          rw [joinComma_cons _ _ (by simp)] at ih
          simpa using congrArg (c :: ·) ih

theorem splitComma_no_comma (s : List Char) :
    ∀ f ∈ splitComma s, ',' ∉ f := by
  induction s with
  | nil => simp [splitComma]
  | cons c rest ih =>
    simp only [splitComma]
    split
    · next hc =>
      intro f hf
      rcases List.mem_cons.mp hf with h | h
      · simp [h]
      · exact ih f h
    · next hc =>
      cases h : splitComma rest with
      | nil => exact absurd h (splitComma_ne_nil rest)
      | cons g gs =>
        intro f hf
        rcases List.mem_cons.mp hf with h1 | h1
        · subst h1
          intro hmem
          rcases List.mem_cons.mp hmem with h2 | h2
          · exact hc h2.symm
          · have := ih g (by rw [h]; exact List.mem_cons_self g gs)
            exact this h2
        · exact ih f (by rw [h]; exact List.mem_cons_of_mem g h1)

theorem mem_of_mem_splitComma (s f : List Char) (c : Char)
    (hf : f ∈ splitComma s) (hc : c ∈ f) : c ∈ s := by
  induction s generalizing f with
  | nil =>
    simp [splitComma] at hf
    subst hf
    simp at hc
  | cons d rest ih =>
    simp only [splitComma] at hf
    split at hf
    · rcases List.mem_cons.mp hf with h | h
      · subst h; simp at hc
      · exact List.mem_cons_of_mem d (ih f h hc)
    · cases h : splitComma rest with
      | nil => exact absurd h (splitComma_ne_nil rest)
      | cons g gs =>
        rw [h] at hf
        rcases List.mem_cons.mp hf with h1 | h1
        · subst h1
          rcases List.mem_cons.mp hc with h2 | h2
          · simp [h2]
          · exact List.mem_cons_of_mem d
              (ih g (by rw [h]; exact List.mem_cons_self g gs) h2)
        · exact List.mem_cons_of_mem d
            (ih f (by rw [h]; exact List.mem_cons_of_mem g h1) hc)

theorem splitComma_single (f : List Char) (h : ',' ∉ f) :
    splitComma f = [f] := by
  induction f with
  | nil => rfl
  | cons c rest ih =>
    simp only [splitComma]
    rw [if_neg (by simp at h; exact fun hc => h.1 hc.symm)]
    rw [ih (by simp at h; exact h.2)]

theorem splitComma_append (f t : List Char) (h : ',' ∉ f) :
    splitComma (f ++ ',' :: t) = f :: splitComma t := by
  induction f with
  | nil => simp [splitComma]
  | cons c rest ih =>
    simp only [List.cons_append, splitComma]
    rw [if_neg (by simp at h; exact fun hc => h.1 hc.symm)]
    simp only [List.append_eq]
    rw [ih (by simp at h; exact h.2)]

theorem splitComma_joinComma (cols : List (List Char)) (hne : cols ≠ [])
    (h : ∀ f ∈ cols, ',' ∉ f) : splitComma (joinComma cols) = cols := by
  induction cols with
  | nil => exact absurd rfl hne
  | cons f fs ih =>
    cases fs with
    | nil =>
      simp only [joinComma]
      exact splitComma_single f (h f (List.mem_cons_self f []))
    | cons g gs =>
      rw [joinComma_cons f (g :: gs) (by simp)]
      rw [splitComma_append f _ (h f (List.mem_cons_self f (g :: gs)))]
      rw [ih (by simp) (fun x hx => h x (List.mem_cons_of_mem f hx))]

theorem mem_joinComma (cols : List (List Char)) (c : Char)
    (hc : c ∈ joinComma cols) : c = ',' ∨ ∃ f ∈ cols, c ∈ f := by
  induction cols with
  | nil => simp [joinComma] at hc
  | cons f fs ih =>
    cases fs with
    | nil =>
      simp only [joinComma] at hc
      exact Or.inr ⟨f, List.mem_cons_self f [], hc⟩
    | cons g gs =>
      rw [joinComma_cons f (g :: gs) (by simp)] at hc
      rcases List.mem_append.mp hc with h | h
      · exact Or.inr ⟨f, List.mem_cons_self f (g :: gs), h⟩
      · rcases List.mem_cons.mp h with h1 | h1
        · exact Or.inl h1
        · rcases ih h1 with h2 | ⟨x, hx, hcx⟩
          · exact Or.inl h2
          · exact Or.inr ⟨x, List.mem_cons_of_mem f hx, hcx⟩

theorem dropWhile_of_forall_not {p : α → Bool} (l : List α)
    (h : ∀ x ∈ l, ¬ p x) : l.dropWhile p = l := by
  cases l with
  | nil => rfl
  | cons x xs =>
    rw [List.dropWhile_cons_of_neg]
    simpa using h x (List.mem_cons_self x xs)

theorem rstripNl_of_not_mem (l : List Char) (h : '\n' ∉ l) :
    rstripNl l = l := by
  unfold rstripNl
  rw [dropWhile_of_forall_not]
  · exact List.reverse_reverse l
  · intro x hx
    simp only [decide_eq_true_eq]
    intro hxe
    subst hxe
    exact h (List.mem_reverse.mp hx)

theorem mem_of_mem_rstripNl (l : List Char) (c : Char)
    (hc : c ∈ rstripNl l) : c ∈ l := by
  unfold rstripNl at hc
  rw [List.mem_reverse] at hc
  exact List.mem_reverse.mp ((List.dropWhile_sublist _).mem hc)

theorem length_insertAt (a : α) (n : Nat) (l : List α) :
    (insertAt a n l).length = l.length + 1 := by
  induction l generalizing n with
  | nil => cases n <;> rfl
  | cons x xs ih =>
    cases n with
    | zero => rfl
    | succ m => simp [insertAt, ih]

theorem getD_insertAt_self (a d : α) (n : Nat) (l : List α)
    (h : n ≤ l.length) : (insertAt a n l).getD n d = a := by
  induction l generalizing n with
  | nil =>
    cases n with
    | zero => rfl
    | succ m => simp at h
  | cons x xs ih =>
    cases n with
    | zero => rfl
    | succ m => simpa [insertAt] using ih m (by simpa using h)

theorem getD_insertAt_succ (a d : α) (n : Nat) (l : List α)
    (h : n ≤ l.length) : (insertAt a n l).getD (n + 1) d = l.getD n d := by
  induction l generalizing n with
  | nil =>
    cases n with
    | zero => rfl
    | succ m => simp at h
  | cons x xs ih =>
    cases n with
    | zero => rfl
    | succ m => simpa [insertAt] using ih m (by simpa using h)

theorem mem_insertAt (a b : α) (n : Nat) (l : List α)
    (h : b ∈ insertAt a n l) : b = a ∨ b ∈ l := by
  induction l generalizing n with
  | nil =>
    cases n with
    | zero => simpa [insertAt] using h
    | succ m => simpa [insertAt] using h
  | cons x xs ih =>
    cases n with
    | zero =>
      rcases List.mem_cons.mp h with h1 | h1
      · exact Or.inl h1
      · exact Or.inr h1
    | succ m =>
      rcases List.mem_cons.mp h with h1 | h1
      · exact Or.inr (by simp [h1])
      · rcases ih m h1 with h2 | h2
        · exact Or.inl h2
        · exact Or.inr (List.mem_cons_of_mem x h2)

theorem matchDateAt_chars (s m : List Char) (h : matchDateAt s = some m) :
    ∀ c ∈ m, c.isDigit = true ∨ c = '-' ∨ c = '_' := by
  unfold matchDateAt at h
  split at h
  · next c1 c2 c3 c4 s1 c5 c6 s2 c7 c8 rest =>
    split at h
    · next hguard =>
      have hm := Option.some.inj h
      subst hm
      simp only [Bool.and_eq_true, decide_eq_true_eq, Bool.or_eq_true,
        decide_eq_true_eq] at hguard
      obtain ⟨⟨⟨⟨⟨⟨⟨⟨⟨h1, h2⟩, h3⟩, h4⟩, h5⟩, h6⟩, h7⟩, h8⟩, h9⟩, h10⟩ := hguard
      intro c hc
      simp only [List.mem_cons, List.not_mem_nil, or_false] at hc
      rcases hc with h | h | h | h | h | h | h | h | h | h
      all_goals subst h
      · exact Or.inl h1
      · exact Or.inl h2
      · exact Or.inl h3
      · exact Or.inl h4
      · exact Or.inr h5
      · exact Or.inl h6
      · exact Or.inl h7
      · exact Or.inr h8
      · exact Or.inl h9
      · exact Or.inl h10
    · exact absurd h (by simp)
  · exact absurd h (by simp)

theorem extract_date_chars (s : List Char) :
    ∀ c ∈ extract_date s, c.isDigit = true ∨ c = '-' := by
  induction s with
  | nil =>
    intro c hc
    rw [show extract_date [] = ['0', '0', '0', '0', '-', '0', '0', '-', '0', '0'] from rfl] at hc
    simp only [List.mem_cons, List.not_mem_nil, or_false] at hc
    rcases hc with h | h | h | h | h | h | h | h | h | h
    all_goals subst h
    all_goals decide
  | cons d rest ih =>
    intro c hc
    unfold extract_date at hc
    revert hc
    cases hm : matchDateAt (d :: rest) with
    | none => exact fun hc => ih c hc
    | some m =>
      intro hc
      simp only at hc
      unfold normalizeDate at hc
      simp only [List.mem_map] at hc
      obtain ⟨x, hx, hcx⟩ := hc
      subst hcx
      rcases matchDateAt_chars (d :: rest) m hm x hx with h | h | h
      · left
        have hne : x ≠ '_' := by
          intro he
          subst he
          exact absurd h (by decide)
        simp [hne, h]
      · subst h
        right
        rfl
      · subst h
        right
        rfl


theorem comma_not_mem_extract_date (s : List Char) :
    ',' ∉ extract_date s := by
  intro h
  rcases extract_date_chars s ',' h with h1 | h1
  · exact absurd h1 (by decide)
  · exact absurd h1 (by decide)

theorem nl_not_mem_extract_date (s : List Char) :
    '\n' ∉ extract_date s := by
  intro h
  rcases extract_date_chars s '\n' h with h1 | h1
  · exact absurd h1 (by decide)
  · exact absurd h1 (by decide)

theorem padded_length_ge (cols : List (List Char)) :
    8 ≤ (cols ++ List.replicate (8 - cols.length) ([] : List Char)).length := by
  rw [List.length_append, List.length_replicate]
  omega

theorem addDateRow_split (date line : List Char) (hdc : ',' ∉ date)
    (hdn : '\n' ∉ date) (hl : '\n' ∉ line) :
    splitComma (rstripNl (addDateRow date line)) =
      insertAt date 8 (splitComma (rstripNl line) ++
        List.replicate (8 - (splitComma (rstripNl line)).length) []) ∧
    '\n' ∉ addDateRow date line := by
  have hpad_fields : ∀ f ∈ splitComma (rstripNl line) ++
      List.replicate (8 - (splitComma (rstripNl line)).length) ([] : List Char),
      (',' ∉ f) ∧ ('\n' ∉ f) := by
    intro f hf
    rcases List.mem_append.mp hf with h | h
    · refine ⟨splitComma_no_comma _ f h, fun hc => ?_⟩
      exact hl (mem_of_mem_rstripNl line '\n'
        (mem_of_mem_splitComma _ f '\n' h hc))
    · have hfe : f = [] := List.eq_of_mem_replicate h
      subst hfe
      simp
  have hins_fields : ∀ f ∈ insertAt date 8 (splitComma (rstripNl line) ++
      List.replicate (8 - (splitComma (rstripNl line)).length) ([] : List Char)),
      (',' ∉ f) ∧ ('\n' ∉ f) := by
    intro f hf
    rcases mem_insertAt date f 8 _ hf with h | h
    · subst h
      exact ⟨hdc, hdn⟩
    · exact hpad_fields f h
  have hrow : addDateRow date line =
      joinComma (insertAt date 8 (splitComma (rstripNl line) ++
        List.replicate (8 - (splitComma (rstripNl line)).length) [])) := rfl
  have hnl : '\n' ∉ addDateRow date line := by
    rw [hrow]
    intro hc
    rcases mem_joinComma _ '\n' hc with h | ⟨f, hf, hcf⟩
    · exact absurd h (by decide)
    · exact (hins_fields f hf).2 hcf
  have hne : insertAt date 8 (splitComma (rstripNl line) ++
      List.replicate (8 - (splitComma (rstripNl line)).length) ([] : List Char)) ≠ [] := by
    intro h
    have hlen := length_insertAt date 8 (splitComma (rstripNl line) ++
      List.replicate (8 - (splitComma (rstripNl line)).length) ([] : List Char))
    rw [h] at hlen
    simp at hlen
  refine ⟨?_, hnl⟩
  rw [hrow]
  rw [rstripNl_of_not_mem _ (by rw [← hrow]; exact hnl)]
  exact splitComma_joinComma _ hne (fun f hf => (hins_fields f hf).1)

theorem addDateRow_facts (date line : List Char) (hdc : ',' ∉ date)
    (hdn : '\n' ∉ date) (hl : '\n' ∉ line) :
    '\n' ∉ addDateRow date line ∧
    9 ≤ (splitComma (rstripNl (addDateRow date line))).length ∧
    (splitComma (rstripNl (addDateRow date line))).getD 8 [] = date := by
  obtain ⟨hsplit, hnl⟩ := addDateRow_split date line hdc hdn hl
  refine ⟨hnl, ?_, ?_⟩
  · rw [hsplit, length_insertAt]
    have := padded_length_ge (splitComma (rstripNl line))
    omega
  · rw [hsplit]
    exact getD_insertAt_self date [] 8 _ (padded_length_ge _)

theorem rstripNl_eq_of_not_mem_split (line : List Char) (h : '\n' ∉ line) :
    splitComma line = splitComma (rstripNl line) := by
  rw [rstripNl_of_not_mem line h]

/-- Claim C3: appending the date column derived from a path and then
verifying the result against the date derived from the same path always
succeeds. -/
theorem C3_append_then_verify_succeeds (path : List Char)
    (lines : List (List Char)) (h : ∀ line ∈ lines, '\n' ∉ line) :
    verify_date_column (extract_date path)
      (add_date_column (extract_date path) lines) = true := by
  simp only [verify_date_column, add_date_column, List.all_eq_true,
    List.mem_map]
  rintro x ⟨line, hline, rfl⟩
  obtain ⟨hnl, hlen, hget⟩ := addDateRow_facts (extract_date path) line
    (comma_not_mem_extract_date path) (nl_not_mem_extract_date path)
    (h line hline)
  simp only [verifyRow, Bool.and_eq_true, decide_eq_true_eq]
  exact ⟨hlen, hget⟩

theorem C3_witness :
    verify_date_column (extract_date ("logs/2024_05_06.csv").toList)
      (add_date_column (extract_date ("logs/2024_05_06.csv").toList)
        [("a,b").toList, ("x,y,z,w,u,v,t,s,r,q").toList]) = true :=
  C3_append_then_verify_succeeds (("logs/2024_05_06.csv").toList)
    [("a,b").toList, ("x,y,z,w,u,v,t,s,r,q").toList] (by decide)

/-- Claim C4: after the Date Column Appender runs, every row of the merged
CSV has at least 9 comma-delimited fields, and its field at index 8 equals
the date inferred from the CSV's own path, regardless of the row's original
field count. -/
theorem C4_date_column_invariant (path : List Char) (lines : List (List Char))
    (h : ∀ line ∈ lines, '\n' ∉ line) :
    ∀ row ∈ add_date_column (extract_date path) lines,
      9 ≤ (splitComma row).length ∧
      (splitComma row).getD 8 [] = extract_date path := by
  intro row hrow
  simp only [add_date_column, List.mem_map] at hrow
  obtain ⟨line, hline, rfl⟩ := hrow
  obtain ⟨hnl, hlen, hget⟩ := addDateRow_facts (extract_date path) line
    (comma_not_mem_extract_date path) (nl_not_mem_extract_date path)
    (h line hline)
  rw [rstripNl_eq_of_not_mem_split _ hnl]
  exact ⟨hlen, hget⟩

theorem C4_witness :
    9 ≤ (splitComma (("a,b,c,,,,,,2024-03-01").toList)).length ∧
    (splitComma (("a,b,c,,,,,,2024-03-01").toList)).getD 8 [] =
      extract_date (("2024-03-01.csv").toList) :=
  C4_date_column_invariant (("2024-03-01.csv").toList) [("a,b,c").toList]
    (by decide) (("a,b,c,,,,,,2024-03-01").toList) (by decide)

theorem addDateRow_second (date w : List Char) (hdc : ',' ∉ date)
    (hdn : '\n' ∉ date) (hw : '\n' ∉ w)
    (hlen : 9 ≤ (splitComma (rstripNl w)).length) :
    splitComma (rstripNl (addDateRow date w)) =
      insertAt date 8 (splitComma (rstripNl w)) := by
  have h := (addDateRow_split date w hdc hdn hw).1
  rw [h]
  have hz : 8 - (splitComma (rstripNl w)).length = 0 := by omega
  rw [hz]
  simp

/-- Claim C2 counterexample: on path `2024-03-01.csv` with the single line
`a,b,c`, the twice-appended file carries the derived date at both field
indices 8 and 9, yet the Date Column Verifier run on the same path returns
`true` — not `false` as the claim asserts. -/
theorem C2_counterexample :
    ((splitComma ((("a,b,c,,,,,,2024-03-01,2024-03-01").toList))).getD 8 [] =
        extract_date (("2024-03-01.csv").toList) ∧
      (splitComma ((("a,b,c,,,,,,2024-03-01,2024-03-01").toList))).getD 9 [] =
        extract_date (("2024-03-01.csv").toList)) ∧
    add_date_column (extract_date ("2024-03-01.csv").toList)
      (add_date_column (extract_date ("2024-03-01.csv").toList)
        [("a,b,c").toList]) = [("a,b,c,,,,,,2024-03-01,2024-03-01").toList] ∧
    verify_date_column (extract_date ("2024-03-01.csv").toList)
      (add_date_column (extract_date ("2024-03-01.csv").toList)
        (add_date_column (extract_date ("2024-03-01.csv").toList)
          [("a,b,c").toList])) ≠ false := by
  refine ⟨⟨by decide, by decide⟩, by decide, by decide⟩

/-- Claim C2 (amended): running the Date Column Appender a second time on an
already-appended file does insert a second date field at position 8, shifting
the prior date to position 9 — but the Date Column Verifier run on the same
path then still succeeds (returns `true`), because the newly inserted field
at index 8 again equals the date derived from that path. -/
theorem C2_reappend_shifts_but_verify_succeeds (path : List Char)
    (lines : List (List Char)) (h : ∀ line ∈ lines, '\n' ∉ line) :
    (∀ row ∈ add_date_column (extract_date path)
        (add_date_column (extract_date path) lines),
      (splitComma row).getD 8 [] = extract_date path ∧
      (splitComma row).getD 9 [] = extract_date path) ∧
    verify_date_column (extract_date path)
      (add_date_column (extract_date path)
        (add_date_column (extract_date path) lines)) = true := by
  have hdc := comma_not_mem_extract_date path
  have hdn := nl_not_mem_extract_date path
  constructor
  · intro row hrow
    simp only [add_date_column, List.mem_map] at hrow
    obtain ⟨w, hw, rfl⟩ := hrow
    obtain ⟨line, hline, rfl⟩ := hw
    obtain ⟨hnl1, hlen1, hget1⟩ := addDateRow_facts (extract_date path) line
      hdc hdn (h line hline)
    have hsplit2 := addDateRow_second (extract_date path)
      (addDateRow (extract_date path) line) hdc hdn hnl1 hlen1
    have hnl2 := (addDateRow_split (extract_date path)
      (addDateRow (extract_date path) line) hdc hdn hnl1).2
    rw [rstripNl_eq_of_not_mem_split _ hnl2, hsplit2]
    constructor
    · exact getD_insertAt_self (extract_date path) [] 8 _ (by omega)
    · rw [getD_insertAt_succ (extract_date path) [] 8 _ (by omega)]
      exact hget1
  · simp only [verify_date_column, add_date_column, List.all_eq_true,
      List.mem_map]
    rintro x ⟨w, hw, rfl⟩
    obtain ⟨line, hline, rfl⟩ := hw
    obtain ⟨hnl1, hlen1, hget1⟩ := addDateRow_facts (extract_date path) line
      hdc hdn (h line hline)
    have hsplit2 := addDateRow_second (extract_date path)
      (addDateRow (extract_date path) line) hdc hdn hnl1 hlen1
    simp only [verifyRow, Bool.and_eq_true, decide_eq_true_eq]
    rw [hsplit2, length_insertAt]
    refine ⟨by omega, ?_⟩
    exact getD_insertAt_self (extract_date path) [] 8 _ (by omega)

theorem C2_witness :
    verify_date_column (extract_date ("data/2023_11_30.csv").toList)
      (add_date_column (extract_date ("data/2023_11_30.csv").toList)
        (add_date_column (extract_date ("data/2023_11_30.csv").toList)
          [("p,q").toList])) = true :=
  (C2_reappend_shifts_but_verify_succeeds (("data/2023_11_30.csv").toList)
    [("p,q").toList] (by decide)).2

/-- Claim C8: for every path containing a substring matching the date pattern
(4 digits, `-` or `_`, 2 digits, `-` or `_`, 2 digits), `extract_date` returns
the first (leftmost) such substring with underscores replaced by hyphens; for
every path with no such substring it returns the sentinel `0000-00-00`; it is
a total function with no other outcome. -/
theorem C8_extract_date_first_match (s : List Char) :
    ((∀ i < s.length, matchDateAt (s.drop i) = none) →
      extract_date s = ("0000-00-00").toList) ∧
    (∀ i m, matchDateAt (s.drop i) = some m →
      (∀ j < i, matchDateAt (s.drop j) = none) →
      extract_date s = normalizeDate m) := by
  induction s with
  | nil =>
    constructor
    · intro _
      rfl
    · intro i m hm _
      rw [List.drop_nil] at hm
      exact absurd hm (by simp [matchDateAt])
  | cons c rest ih =>
    constructor
    · intro h
      have h0 : matchDateAt (c :: rest) = none := by
        simpa using h 0 (by simp)
      have hstep : extract_date (c :: rest) = extract_date rest := by
        conv_lhs => rw [extract_date]
        rw [h0]
      rw [hstep]
      exact ih.1 (fun i hi => by simpa using h (i + 1) (by simpa using hi))
    · intro i m hm hmin
      cases i with
      | zero =>
        rw [List.drop_zero] at hm
        unfold extract_date
        rw [hm]
      | succ j =>
        have h0 : matchDateAt (c :: rest) = none := by
          simpa using hmin 0 (Nat.succ_pos j)
        have hstep : extract_date (c :: rest) = extract_date rest := by
          conv_lhs => rw [extract_date]
          rw [h0]
        rw [hstep]
        refine ih.2 j m (by simpa using hm) (fun k hk => ?_)
        simpa using hmin (k + 1) (by omega)

theorem C8_witness :
    extract_date (("nodigits.zip").toList) = ("0000-00-00").toList ∧
    extract_date (("logs/2024_03-15_full.zip").toList) =
      normalizeDate (("2024_03-15").toList) :=
  ⟨(C8_extract_date_first_match (("nodigits.zip").toList)).1 (by decide),
   (C8_extract_date_first_match (("logs/2024_03-15_full.zip").toList)).2
     5 (("2024_03-15").toList) (by decide) (by decide)⟩

/-- Claim C5: the Line Quality Filter retains a line if and only if its
trimmed comma-separated field count is strictly greater than 5 and the line
contains neither the mojibake marker nor any character with code point below
32 other than newline, carriage return or tab; either failing condition alone
drops the line, and retained lines are kept unchanged in their original
order. -/
theorem C5_quality_filter_keeps_iff (lines : List (List Char)) :
    filter_nonprintable_lines lines = lines.filter lineQualityOk := by
  induction lines with
  | nil => rfl
  | cons line rest ih =>
    simp only [filter_nonprintable_lines, List.filter_cons]
    by_cases h1 : (splitComma (pyStrip line)).length ≤ 5
    · rw [if_pos h1, ih]
      have : lineQualityOk line = false := by
        simp only [lineQualityOk, Bool.and_eq_false_iff]
        left
        left
        simpa using h1
      rw [this]
      simp
    · rw [if_neg h1]
      by_cases h2 : isSubstring mojibakeMarker line || hasBadControl line
      · rw [if_pos h2, ih]
        have : lineQualityOk line = false := by
          simp only [lineQualityOk]
          rcases Bool.or_eq_true_iff.mp h2 with h | h
          · simp [h]
          · simp [h]
        rw [this]
        simp
      · rw [if_neg h2, ih]
        have : lineQualityOk line = true := by
          simp only [lineQualityOk]
          simp only [Bool.or_eq_true_iff, not_or, Bool.not_eq_true] at h2
          simp [h2.1, h2.2]
          omega
        rw [this]
        simp

/-- Claim C6: combining an empty list of files returns 0 with no output file
created; combining a non-empty list writes every line of every readable input
file, in list order, and returns the sum of the line counts of the files it
read. -/
theorem C6_combine_characterization :
    combine_all_csv_files [] = (none, 0) ∧
    ∀ files : List (Option (List (List Char))), files ≠ [] →
      combine_all_csv_files files =
        (some (files.filterMap id).flatten,
         ((files.filterMap id).map List.length).sum) := by
  have hloop : ∀ files : List (Option (List (List Char))),
      combineLoop files =
        ((files.filterMap id).flatten, ((files.filterMap id).map List.length).sum) := by
    intro files
    induction files with
    | nil => rfl
    | cons f rest ih =>
      cases f with
      | none => simpa [combineLoop, List.filterMap_cons] using ih
      | some lines =>
        by_cases he : lines.isEmpty
        · have hl : lines = [] := List.isEmpty_iff.mp he
          subst hl
          simpa [combineLoop, List.filterMap_cons] using ih
        · simp [combineLoop, he, List.filterMap_cons, ih]
  constructor
  · rfl
  · intro files hne
    rw [combine_all_csv_files, if_neg (by simpa using hne), hloop]

theorem C6_witness :
    combine_all_csv_files
        [some [("x,1").toList], none, some [("y,2").toList, ("z,3").toList]] =
      (some [("x,1").toList, ("y,2").toList, ("z,3").toList], 3) := by
  rw [C6_combine_characterization.2
    [some [("x,1").toList], none, some [("y,2").toList, ("z,3").toList]]
    (by decide)]
  decide

/-- Claim C7: when reading the index file fails, the Index Lookup Rewriter
returns a match count of 0 and the combined CSV is left entirely unmodified. -/
theorem C7_index_failure_leaves_combined_intact
    (combined : List (List Char)) :
    update_column_based_on_index none combined = (0, combined) := rfl

/-- Claim C1 counterexample: with an index mapping `A` to `X`, a combined-CSV
row with exactly 6 comma-separated fields whose field index 5 is `A` is NOT
passed through unchanged: the rewriter replaces field 5 and reports one
match, contradicting the claim that rows with 6 or fewer fields undergo no
lookup, no replacement and no counter increment. -/
theorem C1_counterexample :
    update_column_based_on_index (some [("A,X").toList])
        [("a,b,c,d,e,A").toList] =
      (1, [("a,b,c,d,e,X").toList]) ∧
    update_column_based_on_index (some [("A,X").toList])
        [("a,b,c,d,e,A").toList] ≠
      (0, [("a,b,c,d,e,A").toList]) := by
  constructor
  · decide
  · decide

/-- Claim C1 (amended): in the Index Lookup Rewriter, the field-index-5
lookup is attempted exactly when the row has strictly more than 5
comma-separated fields (so exactly one of the match / no-match counters is
incremented for such a row); every row with 5 or fewer fields is passed
through unchanged, with no lookup attempted, no replacement of field 5, and
no counter increment. -/
theorem C1_lookup_threshold (lookup : List (List Char × List Char))
    (line : List Char) (hnl : '\n' ∉ line) :
    ((splitComma line).length ≤ 5 → updateRow lookup line = (line, 0, 0)) ∧
    (5 < (splitComma line).length →
      (updateRow lookup line).2.1 + (updateRow lookup line).2.2 = 1) := by
  have hsplit : splitComma (rstripNl line) = splitComma line :=
    (rstripNl_eq_of_not_mem_split line hnl).symm
  constructor
  · intro hle
    simp only [updateRow, hsplit]
    rw [if_neg (by omega)]
    rw [join_splitComma]
  · intro hgt
    simp only [updateRow, hsplit]
    rw [if_pos hgt]
    cases hfind : dictFind lookup (pyStrip ((splitComma line).getD 5 [])) with
    | some v => simp
    | none => simp

theorem C1_witness :
    updateRow [(("A").toList, ("X").toList)] (("a,b,c,d,A").toList) =
      ((("a,b,c,d,A").toList), 0, 0) ∧
    (updateRow [(("A").toList, ("X").toList)] (("a,b,c,d,e,A").toList)).2.1 +
      (updateRow [(("A").toList, ("X").toList)] (("a,b,c,d,e,A").toList)).2.2 = 1 :=
  ⟨(C1_lookup_threshold [(("A").toList, ("X").toList)] (("a,b,c,d,A").toList)
      (by decide)).1 (by decide),
   (C1_lookup_threshold [(("A").toList, ("X").toList)] (("a,b,c,d,e,A").toList)
      (by decide)).2 (by decide)⟩

theorem mem_addError (name n : List Char) (s : List (List Char))
    (h : name ∈ s) : name ∈ addError n s := by
  unfold addError
  split
  · exact h
  · exact List.mem_cons_of_mem n h

theorem processZipEntry_skip (st : WalkState) (acc : ArchAcc) (e : ZipEntry)
    (h : e.filename ∈ st.errorFiles) : processZipEntry st acc e = (st, acc) := by
  simp [processZipEntry, h]

theorem processTarEntry_skip (st : WalkState) (acc : ArchAcc) (e : TarEntry)
    (h : e.name ∈ st.errorFiles) : processTarEntry st acc e = (st, acc) := by
  simp [processTarEntry, h]

theorem processZipEntry_error_mono (st : WalkState) (acc : ArchAcc)
    (e : ZipEntry) (name : List Char) (h : name ∈ st.errorFiles) :
    name ∈ (processZipEntry st acc e).1.errorFiles := by
  unfold processZipEntry
  split
  · exact h
  · split
    · exact h
    · cases e.read with
      | some lines => exact h
      | none => exact mem_addError name e.filename _ h

theorem processTarEntry_error_mono (st : WalkState) (acc : ArchAcc)
    (e : TarEntry) (name : List Char) (h : name ∈ st.errorFiles) :
    name ∈ (processTarEntry st acc e).1.errorFiles := by
  unfold processTarEntry
  split
  · exact h
  · split
    · exact h
    · cases e.extract with
      | none => exact h
      | some r =>
        cases r with
        | none => exact mem_addError name e.name _ h
        | some lines => exact h

theorem walkZipLoop_removeName (name : List Char) (entries : List ZipEntry) :
    ∀ (st : WalkState) (acc : ArchAcc), name ∈ st.errorFiles →
      walkZipLoop st acc entries =
        walkZipLoop st acc (entries.filter (fun e => decide (e.filename ≠ name))) ∧
      name ∈ (walkZipLoop st acc entries).1.errorFiles := by
  induction entries with
  | nil => exact fun st acc h => ⟨rfl, h⟩
  | cons e rest ih =>
    intro st acc h
    by_cases he : e.filename = name
    · have hskip : processZipEntry st acc e = (st, acc) :=
        processZipEntry_skip st acc e (he ▸ h)
      constructor
      · rw [List.filter_cons, if_neg (by simp [he])]
        simp only [walkZipLoop, hskip]
        exact (ih st acc h).1
      · simp only [walkZipLoop, hskip]
        exact (ih st acc h).2
    · have hmono := processZipEntry_error_mono st acc e name h
      constructor
      · rw [List.filter_cons, if_pos (by simp [he])]
        simp only [walkZipLoop]
        exact (ih _ _ hmono).1
      · simp only [walkZipLoop]
        exact (ih _ _ hmono).2

theorem walkTarLoop_removeName (name : List Char) (entries : List TarEntry) :
    ∀ (st : WalkState) (acc : ArchAcc), name ∈ st.errorFiles →
      walkTarLoop st acc entries =
        walkTarLoop st acc (entries.filter (fun e => decide (e.name ≠ name))) ∧
      name ∈ (walkTarLoop st acc entries).1.errorFiles := by
  induction entries with
  | nil => exact fun st acc h => ⟨rfl, h⟩
  | cons e rest ih =>
    intro st acc h
    by_cases he : e.name = name
    · have hskip : processTarEntry st acc e = (st, acc) :=
        processTarEntry_skip st acc e (he ▸ h)
      constructor
      · rw [List.filter_cons, if_neg (by simp [he])]
        simp only [walkTarLoop, hskip]
        exact (ih st acc h).1
      · simp only [walkTarLoop, hskip]
        exact (ih st acc h).2
    · have hmono := processTarEntry_error_mono st acc e name h
      constructor
      · rw [List.filter_cons, if_pos (by simp [he])]
        simp only [walkTarLoop]
        exact (ih _ _ hmono).1
      · simp only [walkTarLoop]
        exact (ih _ _ hmono).2

theorem walkArchive_removeName (name : List Char) (st : WalkState)
    (a : Archive) (h : name ∈ st.errorFiles) :
    walkArchive st a = walkArchive st (archiveRemoveName name a) ∧
    name ∈ (walkArchive st a).1.errorFiles := by
  cases a with
  | zip entries =>
    exact (walkZipLoop_removeName name entries st ⟨0, 0, []⟩ h)
  | tar entries =>
    exact (walkTarLoop_removeName name entries st ⟨0, 0, []⟩ h)

/-- Claim C9: once a member name is in the process-wide Error Set, every
later member bearing that name — in the same or any subsequent archive,
ZIP or TAR alike — is skipped on sight: deleting all members with that name
from every archive changes nothing, neither the final process state, nor any
per-archive counter, nor any line of any merged CSV. -/
theorem C9_error_set_global_exclusion (st : WalkState) (archs : List Archive)
    (name : List Char) (h : name ∈ st.errorFiles) :
    runArchives st archs =
      runArchives st (archs.map (archiveRemoveName name)) := by
  induction archs generalizing st with
  | nil => rfl
  | cons a rest ih =>
    obtain ⟨heq, hmem⟩ := walkArchive_removeName name st a h
    simp only [List.map_cons, runArchives]
    rw [← heq, ih (walkArchive st a).1 hmem]

theorem C9_witness :
    runArchives
        ⟨[("abcdefghijklmnopq.csv").toList], 0, [], 0, 0⟩
        [Archive.zip [⟨("abcdefghijklmnopq.csv").toList, false,
          some [("1,2,3,4,5,6").toList]⟩],
         Archive.tar [⟨("abcdefghijklmnopq.csv").toList, true,
          some (some [("1,2,3,4,5,6").toList])⟩]] =
      runArchives
        ⟨[("abcdefghijklmnopq.csv").toList], 0, [], 0, 0⟩
        ([Archive.zip [⟨("abcdefghijklmnopq.csv").toList, false,
          some [("1,2,3,4,5,6").toList]⟩],
          Archive.tar [⟨("abcdefghijklmnopq.csv").toList, true,
          some (some [("1,2,3,4,5,6").toList])⟩]].map
            (archiveRemoveName (("abcdefghijklmnopq.csv").toList))) :=
  C9_error_set_global_exclusion
    ⟨[("abcdefghijklmnopq.csv").toList], 0, [], 0, 0⟩
    [Archive.zip [⟨("abcdefghijklmnopq.csv").toList, false,
      some [("1,2,3,4,5,6").toList]⟩],
     Archive.tar [⟨("abcdefghijklmnopq.csv").toList, true,
      some (some [("1,2,3,4,5,6").toList])⟩]]
    (("abcdefghijklmnopq.csv").toList) (by decide)

/-- Claim C10: in both the ZIP and the TAR walker, a qualifying member whose
open/read/decode fails is still counted in the per-archive and global
processed-CSV counters and appended to the processed-names list — those
updates happen before the read is attempted — while it joins the Error Set
and contributes no lines to the merged CSV. -/
theorem C10_counted_before_read :
    (∀ (st : WalkState) (acc : ArchAcc) (e : ZipEntry),
      e.filename ∉ st.errorFiles → e.isDir = false →
      qualifiesCsv e.filename = true → e.read = none →
      processZipEntry st acc e =
        ({ st with totalCsvFound := st.totalCsvFound + 1,
                   processedCsvNames := st.processedCsvNames ++ [e.filename],
                   errorFiles := addError e.filename st.errorFiles },
         { acc with csvCount := acc.csvCount + 1 })) ∧
    (∀ (st : WalkState) (acc : ArchAcc) (e : TarEntry),
      e.name ∉ st.errorFiles → e.isFile = true →
      qualifiesCsv e.name = true → e.extract = some none →
      processTarEntry st acc e =
        ({ st with totalCsvFound := st.totalCsvFound + 1,
                   processedCsvNames := st.processedCsvNames ++ [e.name],
                   errorFiles := addError e.name st.errorFiles },
         { acc with csvCount := acc.csvCount + 1 })) := by
  constructor
  · intro st acc e hmem hdir hq hread
    unfold processZipEntry
    rw [if_neg hmem, if_neg (by simp [hdir, hq]), hread]
  · intro st acc e hmem hfile hq hext
    unfold processTarEntry
    rw [if_neg hmem, if_neg (by simp [hfile, hq]), hext]

theorem C10_witness :
    processZipEntry ⟨[], 0, [], 0, 0⟩ ⟨0, 0, []⟩
        ⟨("abcdefghijklmnopq.csv").toList, false, none⟩ =
      (⟨addError (("abcdefghijklmnopq.csv").toList) [], 1,
        [("abcdefghijklmnopq.csv").toList], 0, 0⟩, ⟨1, 0, []⟩) ∧
    processTarEntry ⟨[], 0, [], 0, 0⟩ ⟨0, 0, []⟩
        ⟨("abcdefghijklmnopq.csv").toList, true, some none⟩ =
      (⟨addError (("abcdefghijklmnopq.csv").toList) [], 1,
        [("abcdefghijklmnopq.csv").toList], 0, 0⟩, ⟨1, 0, []⟩) :=
  ⟨C10_counted_before_read.1 ⟨[], 0, [], 0, 0⟩ ⟨0, 0, []⟩
      ⟨("abcdefghijklmnopq.csv").toList, false, none⟩
      (by decide) rfl (by decide) rfl,
   C10_counted_before_read.2 ⟨[], 0, [], 0, 0⟩ ⟨0, 0, []⟩
      ⟨("abcdefghijklmnopq.csv").toList, true, some none⟩
      (by decide) rfl (by decide) rfl⟩
